import Mathlib

/-!
Verification of the gala repository's core pipeline.

The development shallowly embeds the TypeScript sources:

* `processWithPool` (src/unnamed/part_001, lines 3-47): the bounded
  concurrency scheduler.  Its asynchronous run is modelled as a small-step
  system: a `PoolState` carries the `results` array (a slot per item,
  `none` = not yet populated), the list `running` of indices of in-flight
  worker invocations, the `nextIndex` cursor, the `completed` counter and
  the promise's `resolved` value.  A worker's outcome is a pure function
  `processor : α → Option β` (`none` models a rejected promise).  The event
  loop's nondeterministic completion order is an explicit `schedule`: at
  each step an arbitrary in-flight invocation (chosen by the schedule
  entry, taken modulo the number of in-flight invocations) settles.
  JavaScript `results.filter(Boolean)` is modelled by `collect` with an
  explicit truthiness predicate on result values.

* `parseGitignore` / `getAuthorsFromFile` / `displayGeneralContributions` /
  `displayUserContributions` (src/unnamed/part_001, part_002): JavaScript
  strings are modelled as `List Char` (one entry per code unit), with
  faithful models of the string primitives the code uses (`trim`, `split`,
  `startsWith`, `endsWith`, `includes`, `slice`, `substring`).  JavaScript
  objects used as string-keyed count maps are modelled by insertion-ordered
  association lists (`Object.entries` order), and `Array.prototype.sort`
  (a stable sort by the given comparator) by `List.mergeSort`.
-/

namespace Gala

/-! ## The bounded concurrency scheduler, src/unnamed/part_001 lines 3-47 -/

/-- State of one run of `processWithPool`:
`results` is `const results: R[] = new Array(items.length)` (a `none` entry
is a hole), `running` holds the indices of the in-flight invocations
(`runningCount` is its length), `nextIndex` and `completed` are the
homonymous mutable variables, and `resolved` is the value passed to
`resolve`, once called. -/
structure PoolState (β : Type) where
  results : List (Option β)
  running : List Nat
  nextIndex : Nat
  completed : Nat
  resolved : Option (List β)

/-- `results.filter(Boolean)` (line 18): unpopulated slots and falsy values
are both dropped. -/
def collect (truthy : β → Bool) (results : List (Option β)) : List β :=
  results.filterMap fun o =>
    match o with
    | some r => if truthy r then some r else none
    | none => none

/-- `processNext` (lines 16-40): if all items are dispatched, resolve when
nothing is running any more; otherwise dispatch the item at `nextIndex`
(its completion is recorded in `running`) and advance the cursor. -/
def processNext (n : Nat) (truthy : β → Bool) (s : PoolState β) : PoolState β :=
  if n ≤ s.nextIndex then
    if s.running.isEmpty then { s with resolved := some (collect truthy s.results) }
    else s
  else
    { s with running := s.running ++ [s.nextIndex], nextIndex := s.nextIndex + 1 }

/-- Settlement of one in-flight invocation (the `.then/.catch/.finally`
chain, lines 27-39).  The schedule entry `p` picks which in-flight index
settles (modulo the number of in-flight invocations; a no-op when nothing
is in flight).  On fulfilment the result is stored at the item's original
index and `completed` is bumped; on rejection the error is only logged.
`finally` removes the invocation and calls `processNext`. -/
def settle (items : List α) (processor : α → Option β) (truthy : β → Bool)
    (s : PoolState β) (p : Nat) : PoolState β :=
  if s.running.isEmpty then s
  else
    let idx := s.running.getD (p % s.running.length) 0
    let res := items[idx]?.bind processor
    processNext items.length truthy
      { s with
        results := match res with
          | some r => s.results.set idx (some r)
          | none => s.results
        completed := match res with
          | some _ => s.completed + 1
          | none => s.completed
        running := s.running.erase idx }

/-- The state before the initial batch: fresh `new Array(items.length)`,
nothing running, nothing dispatched, promise pending. -/
def initState (n : Nat) : PoolState β :=
  { results := List.replicate n none
    running := []
    nextIndex := 0
    completed := 0
    resolved := none }

/-- The initial batch (lines 42-45): `Math.min(concurrencyLimit,
items.length)` synchronous calls of `processNext`. -/
def startPool (n limit : Nat) (truthy : β → Bool) : PoolState β :=
  (processNext n truthy)^[min limit n] (initState n)

/-- A whole run of `processWithPool`: the initial batch, then the in-flight
invocations settle in the order the schedule chooses. -/
def processWithPool (items : List α) (concurrencyLimit : Nat)
    (processor : α → Option β) (truthy : β → Bool) (schedule : List Nat) :
    PoolState β :=
  schedule.foldl (fun s p => settle items processor truthy s p)
    (startPool items.length concurrencyLimit truthy)

/-- `const CONCURRENCY_LIMIT = 50` (src/src/cli.ts line 140). -/
def CONCURRENCY_LIMIT : Nat := 50

/-- Remaining work: items not yet dispatched plus invocations in flight. -/
def poolMeasure (n : Nat) (s : PoolState β) : Nat :=
  (n - s.nextIndex) + s.running.length

/-! ## JavaScript string model

JavaScript strings are sequences of code units; the sources only ever use
`trim`, `startsWith`, `endsWith`, `includes`, `split("\n")`, `slice` and
`substring`, all of which are modelled structurally on `List Char`. -/

/-- A JavaScript string as its sequence of characters. -/
abbrev JSStr := List Char

/-- `s.trim()`: strip leading and trailing whitespace. -/
def jsTrim (s : JSStr) : JSStr :=
  ((s.dropWhile Char.isWhitespace).reverse.dropWhile Char.isWhitespace).reverse

/-- `s.startsWith(pre)`. -/
def jsStartsWith : JSStr → JSStr → Bool
  | _, [] => true
  | [], _ :: _ => false
  | c :: s, p :: ps => c == p && jsStartsWith s ps

/-- `s.endsWith(post)`. -/
def jsEndsWith (s post : JSStr) : Bool :=
  jsStartsWith s.reverse post.reverse

/-- `s.includes(c)` for a one-character needle. -/
def jsIncludes (s : JSStr) (c : Char) : Bool :=
  s.contains c

/-- `s.split("\n")`: the empty string yields `[""]`. -/
def splitLines : JSStr → List JSStr
  | [] => [[]]
  | c :: rest =>
    if c = '\n' then [] :: splitLines rest
    else
      match splitLines rest with
      | [] => [[c]]
      | line :: ls => (c :: line) :: ls

/-- Join lines with the newline separator: the content whose
`split("\n")` is exactly the given newline-free lines. -/
def joinLines : List JSStr → JSStr
  | [] => []
  | [l] => l
  | l :: rest => l ++ '\n' :: joinLines rest

/-! ## parseGitignore, src/unnamed/part_001 lines 231-274 -/

/-- The body of `parseGitignore`'s per-line loop (lines 244-268): `none`
means the line is skipped, `some p` that pattern `p` is pushed.  The line
is trimmed; blank lines, `#` comments and `!` negations are dropped; a
trailing `/` becomes `/**`; a rule with no `/` gets a `**/` prefix; a
leading `/` is stripped. -/
def translateLine (rawLine : JSStr) : Option JSStr :=
  let line := jsTrim rawLine
  if line.isEmpty || jsStartsWith line ['#'] then none
  else if jsStartsWith line ['!'] then none
  else
    let p1 := if jsEndsWith line ['/'] then line.dropLast ++ ['/', '*', '*']
      else line
    let p2 := if !jsStartsWith p1 ['/'] && !jsIncludes p1 '/' then
        '*' :: '*' :: '/' :: p1
      else p1
    if jsStartsWith p2 ['/'] then some (p2.drop 1) else some p2

/-- `parseGitignore` on the ignore file's text: the translated patterns,
in source-line order. -/
def parseGitignore (content : JSStr) : List JSStr :=
  (splitLines content).filterMap translateLine

/-! ## getAuthorsFromFile, src/unnamed/part_002 lines 5-42 -/

/-- Parsing of the blame oracle's `--line-porcelain` output (lines 25-32):
every output line starting `author ` contributes its `substring(7)`. -/
def parseBlameAuthors (output : JSStr) : List JSStr :=
  (splitLines output).filterMap fun line =>
    if jsStartsWith line (("author ").data) then some (line.drop 7) else none

/-- `getAuthorsFromFile` with the blame oracle abstracted: `oracle = some
output` is the spawned process's stdout, `oracle = none` any failure to
invoke or parse it (the catch path, lines 39-41).  `filterUser = none`
models the optional parameter being omitted; by JavaScript truthiness
(`if (filterUser)`, `filterUser ? 0 : []`) the empty string behaves the
same, which `filterUser.getD []` captures. -/
def getAuthorsFromFile (oracle : Option JSStr) (filterUser : Option JSStr) :
    List JSStr ⊕ Nat :=
  let fu := filterUser.getD []
  match oracle with
  | some output =>
    let authors := parseBlameAuthors output
    if !fu.isEmpty then Sum.inr (authors.filter (fun a => a == fu)).length
    else Sum.inl authors
  | none => if !fu.isEmpty then Sum.inr 0 else Sum.inl []

/-! ## Aggregation and sorting, src/unnamed/part_001 lines 445-536 -/

/-- One step of the `authorCounts` loop (lines 528-532): an identity whose
trim is empty is dropped, any other is counted under its exact, untrimmed
identity. -/
def bumpAuthor (counts : JSStr → Nat) (author : JSStr) : JSStr → Nat :=
  if (jsTrim author).isEmpty then counts
  else fun x => if x = author then counts x + 1 else counts x

/-- The `authorCounts` record of `displayGeneralContributions`, viewed as
the map from identity to count. -/
def authorTally (allAuthors : List JSStr) : JSStr → Nat :=
  allAuthors.foldl bumpAuthor (fun _ => 0)

/-- Insertion of one identity into the `authorCounts` record, remembering
JavaScript object key order: a new key goes to the end, an existing key
keeps its position and its count is bumped. -/
def insertAuthor (entries : List (JSStr × Nat)) (author : JSStr) :
    List (JSStr × Nat) :=
  if entries.any (fun e => e.1 == author) then
    entries.map (fun e => if e.1 == author then (e.1, e.2 + 1) else e)
  else entries ++ [(author, 1)]

/-- `Object.entries(authorCounts)`: the tally as the insertion-ordered
list of (identity, count) pairs. -/
def authorEntries (allAuthors : List JSStr) : List (JSStr × Nat) :=
  allAuthors.foldl
    (fun es a => if (jsTrim a).isEmpty then es else insertAuthor es a) []

/-- `.sort(([, a], [, b]) => b - a)` (lines 534-536, and 451-453 of
`displayUserContributions`): `Array.prototype.sort` is a stable sort, so
the run is modelled by the stable `List.mergeSort` under the comparator's
order, count descending. -/
def sortEntries (entries : List (JSStr × Nat)) : List (JSStr × Nat) :=
  entries.mergeSort (fun e f => Nat.ble f.2 e.2)

/-- A five-line blame output whose authorship sequence is
`["A","B","A","A","C"]`. -/
def blameFive : JSStr :=
  ("author A\nauthor B\nauthor A\nauthor A\nauthor C").data

/-- JavaScript truthiness of a number: `0` is falsy. -/
def natTruthy (n : Nat) : Bool := n != 0

/-- The invariant tying a reachable `PoolState` to the run's parameters. -/
structure PoolInv (items : List α) (processor : α → Option β)
    (truthy : β → Bool) (limit : Nat) (s : PoolState β) : Prop where
  nodup : s.running.Nodup
  run_lt : ∀ i ∈ s.running, i < s.nextIndex
  next_le : s.nextIndex ≤ items.length
  len_le : s.running.length ≤ min limit items.length
  steady : s.nextIndex < items.length → s.running.length = min limit items.length
  res_len : s.results.length = items.length
  settledOk : ∀ i, i < s.nextIndex → i ∉ s.running →
    s.results[i]? = items[i]?.map processor
  pendingOk : ∀ i, i < items.length → (i ∈ s.running ∨ s.nextIndex ≤ i) →
    s.results[i]? = some none
  live : 1 ≤ min limit items.length → s.resolved = none → s.running ≠ []
  resolvedOk : ∀ l, s.resolved = some l →
    s.running = [] ∧ s.nextIndex = items.length ∧
      l = collect truthy (items.map processor)

/-- Closed form of the initial batch: after `k ≤ n` calls of `processNext`
exactly the items `0, …, k-1` have been dispatched and are in flight. -/
theorem iterate_processNext (n : Nat) (truthy : β → Bool) :
    ∀ k, k ≤ n → (processNext n truthy)^[k] (initState n) =
      { results := List.replicate n none
        running := List.range k
        nextIndex := k
        completed := 0
        resolved := none } := by
  intro k
  induction k with
  | zero => intro _; simp [initState]
  | succ k ih =>
    intro hk
    rw [Function.iterate_succ_apply', ih (Nat.le_of_succ_le hk)]
    simp [processNext, Nat.not_le.mpr (Nat.lt_of_succ_le hk), List.range_succ]

/-- The state after the initial batch, in closed form. -/
theorem startPool_eq (n limit : Nat) (truthy : β → Bool) :
    startPool (β := β) n limit truthy =
      { results := List.replicate n none
        running := List.range (min limit n)
        nextIndex := min limit n
        completed := 0
        resolved := none } :=
  iterate_processNext n truthy (min limit n) (Nat.min_le_right _ _)

/-- The invariant holds right after the initial batch. -/
theorem poolInv_start (items : List α) (processor : α → Option β)
    (truthy : β → Bool) (limit : Nat) :
    PoolInv items processor truthy limit
      (startPool items.length limit truthy) := by
  rw [startPool_eq]
  constructor
  · exact List.nodup_range _
  · intro i hi; exact List.mem_range.mp hi
  · exact Nat.min_le_right _ _
  · simp
  · intro _; simp
  · simp
  · intro i hi hni
    exact absurd (List.mem_range.mpr hi) hni
  · intro i hi _
    simp [hi]
  · intro hmin _ hnil
    have h1 : min limit items.length = 0 := List.range_eq_nil.mp hnil
    omega
  · intro l hl; simp at hl

/-- A fully settled results array holds exactly each item's outcome. -/
theorem results_eq_map (items : List α) (processor : α → Option β)
    (results : List (Option β)) (hlen : results.length = items.length)
    (hget : ∀ i, i < items.length → results[i]? = items[i]?.map processor) :
    results = items.map processor := by
  apply List.ext_getElem?
  intro i
  by_cases hi : i < items.length
  · rw [hget i hi, List.getElem?_map]
  · rw [List.getElem?_eq_none (by omega), List.getElem?_eq_none (by simpa using hi)]

/-- `processNext` preserves the invariant, given the state one settlement
leaves behind (one invocation just removed from `running`). -/
theorem poolInv_processNext (items : List α) (processor : α → Option β)
    (truthy : β → Bool) (limit : Nat) (s1 : PoolState β)
    (nodup : s1.running.Nodup)
    (run_lt : ∀ i ∈ s1.running, i < s1.nextIndex)
    (next_le : s1.nextIndex ≤ items.length)
    (len_le : s1.running.length + 1 ≤ min limit items.length)
    (steady : s1.nextIndex < items.length →
      s1.running.length + 1 = min limit items.length)
    (res_len : s1.results.length = items.length)
    (settledOk : ∀ i, i < s1.nextIndex → i ∉ s1.running →
      s1.results[i]? = items[i]?.map processor)
    (pendingOk : ∀ i, i < items.length → (i ∈ s1.running ∨ s1.nextIndex ≤ i) →
      s1.results[i]? = some none)
    (hresolved : s1.resolved = none) :
    PoolInv items processor truthy limit (processNext items.length truthy s1) := by
  by_cases hnle : items.length ≤ s1.nextIndex
  · cases hE : s1.running.isEmpty with
    | true =>
      have hrun : s1.running = [] := List.isEmpty_iff.mp hE
      have hnext : s1.nextIndex = items.length := le_antisymm next_le hnle
      have hfull : s1.results = items.map processor := by
        refine results_eq_map items processor s1.results res_len ?_
        intro i hi
        exact settledOk i (by omega) (by simp [hrun])
      simp only [processNext, if_pos hnle, if_pos hE]
      constructor
      · show s1.running.Nodup
        exact nodup
      · show ∀ i ∈ s1.running, i < s1.nextIndex
        exact run_lt
      · show s1.nextIndex ≤ items.length
        exact next_le
      · show s1.running.length ≤ min limit items.length
        omega
      · show s1.nextIndex < items.length → _
        intro h; omega
      · show s1.results.length = items.length
        exact res_len
      · show ∀ i, i < s1.nextIndex → i ∉ s1.running → _
        intro i hi hni; exact settledOk i hi hni
      · show ∀ i, i < items.length → i ∈ s1.running ∨ s1.nextIndex ≤ i → _
        intro i hi hor
        rcases hor with h | h
        · rw [hrun] at h; simp at h
        · omega
      · intro _ habs
        exact absurd habs (by simp)
      · intro l hl
        have hl2 : some (collect truthy s1.results) = some l := hl
        simp only [Option.some.injEq] at hl2
        exact ⟨hrun, hnext, by rw [← hl2, hfull]⟩
    | false =>
      have hrun : s1.running ≠ [] := List.isEmpty_eq_false.mp hE
      simp only [processNext, if_pos hnle, if_neg (by simp [hE] :
        ¬s1.running.isEmpty = true)]
      exact ⟨nodup, run_lt, next_le, by omega, fun h => by omega, res_len,
        settledOk, pendingOk, fun _ _ => hrun,
        fun l hl => by rw [hresolved] at hl; cases hl⟩
  · have hlt : s1.nextIndex < items.length := Nat.lt_of_not_le hnle
    simp only [processNext, if_neg hnle]
    constructor
    · show (s1.running ++ [s1.nextIndex]).Nodup
      refine List.Nodup.append nodup (List.nodup_singleton _) ?_
      intro a ha hb
      simp only [List.mem_singleton] at hb
      exact absurd (run_lt a ha) (by omega)
    · show ∀ i ∈ s1.running ++ [s1.nextIndex], i < s1.nextIndex + 1
      intro i hi
      rcases List.mem_append.mp hi with h | h
      · exact Nat.lt_succ_of_lt (run_lt i h)
      · simp only [List.mem_singleton] at h; omega
    · show s1.nextIndex + 1 ≤ items.length
      omega
    · show (s1.running ++ [s1.nextIndex]).length ≤ min limit items.length
      simpa using len_le
    · show s1.nextIndex + 1 < items.length → (s1.running ++ [s1.nextIndex]).length = _
      intro _; simpa using steady hlt
    · show s1.results.length = items.length
      exact res_len
    · show ∀ i, i < s1.nextIndex + 1 → i ∉ s1.running ++ [s1.nextIndex] → _
      intro i hi hni
      simp only [List.mem_append, List.mem_singleton, not_or] at hni
      have : i ≠ s1.nextIndex := hni.2
      exact settledOk i (by omega) hni.1
    · show ∀ i, i < items.length →
        i ∈ s1.running ++ [s1.nextIndex] ∨ s1.nextIndex + 1 ≤ i → _
      intro i hi hor
      refine pendingOk i hi ?_
      rcases hor with h | h
      · rcases List.mem_append.mp h with h | h
        · exact Or.inl h
        · simp only [List.mem_singleton] at h; omega
      · omega
    · intro _ _
      show s1.running ++ [s1.nextIndex] ≠ []
      simp
    · intro l hl
      have hl2 : s1.resolved = some l := hl
      rw [hresolved] at hl2; cases hl2

/-- A `getD` lookup at an in-range position is a member of the list. -/
theorem getD_mem_of_lt {l : List Nat} {i : Nat} (h : i < l.length) :
    l.getD i 0 ∈ l := by
  rw [List.getD_eq_getElem?_getD, List.getElem?_eq_getElem h]
  exact List.getElem_mem h

/-- One settlement step preserves the invariant. -/
theorem poolInv_settle (items : List α) (processor : α → Option β)
    (truthy : β → Bool) (limit : Nat) {s : PoolState β}
    (hs : PoolInv items processor truthy limit s) (p : Nat) :
    PoolInv items processor truthy limit (settle items processor truthy s p) := by
  cases hE : s.running.isEmpty with
  | true => simpa [settle, hE] using hs
  | false =>
    have hne : s.running ≠ [] := List.isEmpty_eq_false.mp hE
    have hlen : 0 < s.running.length := List.length_pos.mpr hne
    simp only [settle, if_neg (by simp [hE] : ¬s.running.isEmpty = true)]
    set idx := s.running.getD (p % s.running.length) 0 with hidx
    have hmem : idx ∈ s.running := getD_mem_of_lt (Nat.mod_lt _ hlen)
    have hidxlt : idx < s.nextIndex := hs.run_lt idx hmem
    have hidxn : idx < items.length := lt_of_lt_of_le hidxlt hs.next_le
    have herase_len : (s.running.erase idx).length = s.running.length - 1 :=
      List.length_erase_of_mem hmem
    have herase_mem : ∀ j, j ∈ s.running.erase idx ↔ j ≠ idx ∧ j ∈ s.running :=
      fun j => hs.nodup.mem_erase_iff
    have hresolved : s.resolved = none := by
      cases hres : s.resolved with
      | none => rfl
      | some l => exact absurd (hs.resolvedOk l hres).1 hne
    have hitem : items[idx]? = some items[idx] := List.getElem?_eq_getElem hidxn
    cases hres : items[idx]?.bind processor with
    | none =>
      refine poolInv_processNext items processor truthy limit _
        (hs.nodup.erase idx) ?_ hs.next_le ?_ ?_ hs.res_len ?_ ?_ hresolved
      · intro i hi
        exact hs.run_lt i ((herase_mem i).mp hi).2
      · show (s.running.erase idx).length + 1 ≤ min limit items.length
        have := hs.len_le
        omega
      · intro h
        have h2 : s.nextIndex < items.length := h
        have := hs.steady h2
        show (s.running.erase idx).length + 1 = min limit items.length
        omega
      · intro i hi hni
        show s.results[i]? = items[i]?.map processor
        by_cases hieq : i = idx
        · rw [hieq]
          have hpend := hs.pendingOk idx hidxn (Or.inl hmem)
          rw [hpend, hitem]
          have hpn : processor items[idx] = none := by
            rw [hitem] at hres
            simpa using hres
          simp [hpn]
        · exact hs.settledOk i hi (fun hmem2 =>
            hni ((herase_mem i).mpr ⟨hieq, hmem2⟩))
      · intro i hi hor
        refine hs.pendingOk i hi ?_
        rcases hor with h | h
        · exact Or.inl ((herase_mem i).mp h).2
        · exact Or.inr h
    | some r =>
      have hproc : processor items[idx] = some r := by
        rw [hitem] at hres
        simpa using hres
      refine poolInv_processNext items processor truthy limit _
        (hs.nodup.erase idx) ?_ hs.next_le ?_ ?_ ?_ ?_ ?_ hresolved
      · intro i hi
        exact hs.run_lt i ((herase_mem i).mp hi).2
      · show (s.running.erase idx).length + 1 ≤ min limit items.length
        have := hs.len_le
        omega
      · intro h
        have h2 : s.nextIndex < items.length := h
        have := hs.steady h2
        show (s.running.erase idx).length + 1 = min limit items.length
        omega
      · show (s.results.set idx (some r)).length = items.length
        simp [hs.res_len]
      · intro i hi hni
        show (s.results.set idx (some r))[i]? = items[i]?.map processor
        by_cases hieq : i = idx
        · subst hieq
          rw [List.getElem?_set_self (by rw [hs.res_len]; exact hidxn), hitem]
          simp [hproc]
        · rw [List.getElem?_set_ne (fun h => hieq h.symm)]
          exact hs.settledOk i hi (fun hmem2 =>
            hni ((herase_mem i).mpr ⟨hieq, hmem2⟩))
      · intro i hi hor
        show (s.results.set idx (some r))[i]? = some none
        have hine : i ≠ idx := by
          rcases hor with h | h
          · exact ((herase_mem i).mp h).1
          · have h2 : s.nextIndex ≤ i := h
            omega
        rw [List.getElem?_set_ne (fun h => hine h.symm)]
        refine hs.pendingOk i hi ?_
        rcases hor with h | h
        · exact Or.inl ((herase_mem i).mp h).2
        · exact Or.inr h

/-- With nothing in flight a settlement step is a no-op. -/
theorem settle_of_isEmpty (items : List α) (processor : α → Option β)
    (truthy : β → Bool) {s : PoolState β} (hE : s.running.isEmpty = true)
    (p : Nat) : settle items processor truthy s p = s := by
  simp [settle, hE]

/-- Each effective settlement step decreases the measure by exactly one. -/
theorem poolMeasure_settle (items : List α) (processor : α → Option β)
    (truthy : β → Bool) (limit : Nat) {s : PoolState β}
    (_hs : PoolInv items processor truthy limit s)
    (hE : s.running.isEmpty = false) (p : Nat) :
    poolMeasure items.length (settle items processor truthy s p) + 1 =
      poolMeasure items.length s := by
  have hne : s.running ≠ [] := List.isEmpty_eq_false.mp hE
  have hlen : 0 < s.running.length := List.length_pos.mpr hne
  simp only [settle, if_neg (by simp [hE] : ¬s.running.isEmpty = true)]
  set idx := s.running.getD (p % s.running.length) 0 with hidx
  have hmem : idx ∈ s.running := getD_mem_of_lt (Nat.mod_lt _ hlen)
  have herase_len : (s.running.erase idx).length = s.running.length - 1 :=
    List.length_erase_of_mem hmem
  by_cases hnle : items.length ≤ s.nextIndex
  · by_cases hE2 : (s.running.erase idx).isEmpty
    · simp only [processNext, if_pos hnle, if_pos hE2]
      show items.length - s.nextIndex + (s.running.erase idx).length + 1 =
        items.length - s.nextIndex + s.running.length
      omega
    · simp only [processNext, if_pos hnle, if_neg hE2]
      show items.length - s.nextIndex + (s.running.erase idx).length + 1 =
        items.length - s.nextIndex + s.running.length
      omega
  · simp only [processNext, if_neg hnle]
    show items.length - (s.nextIndex + 1) +
        (s.running.erase idx ++ [s.nextIndex]).length + 1 =
      items.length - s.nextIndex + s.running.length
    rw [List.length_append]
    simp only [List.length_singleton]
    omega

/-- Once resolved (hence nothing in flight), further steps change nothing. -/
theorem foldl_settle_frozen (items : List α) (processor : α → Option β)
    (truthy : β → Bool) {s : PoolState β} (hrun : s.running = []) :
    ∀ schedule : List Nat,
      schedule.foldl (fun s p => settle items processor truthy s p) s = s := by
  intro schedule
  induction schedule with
  | nil => rfl
  | cons p rest ih =>
    show (rest.foldl _ (settle items processor truthy s p)) = s
    rw [settle_of_isEmpty items processor truthy (by simp [hrun]) p]
    exact ih

/-- A run whose schedule settles at least `poolMeasure` invocations ends
resolved, with the collected truthy outcomes of every item. -/
theorem foldl_settle_resolves (items : List α) (processor : α → Option β)
    (truthy : β → Bool) (limit : Nat) :
    ∀ (schedule : List Nat) (s : PoolState β),
      PoolInv items processor truthy limit s →
      1 ≤ min limit items.length →
      poolMeasure items.length s ≤ schedule.length →
      (schedule.foldl (fun s p => settle items processor truthy s p) s).resolved =
        some (collect truthy (items.map processor)) := by
  intro schedule
  induction schedule with
  | nil =>
    intro s hs hmin hmu
    cases hres : s.resolved with
    | some l =>
      show s.resolved = _
      rw [hres, (hs.resolvedOk l hres).2.2]
    | none =>
      have hne := hs.live hmin hres
      have hpos : 0 < s.running.length := List.length_pos.mpr hne
      simp only [poolMeasure, List.length_nil] at hmu
      omega
  | cons p rest ih =>
    intro s hs hmin hmu
    show (rest.foldl _ (settle items processor truthy s p)).resolved = _
    cases hres : s.resolved with
    | some l =>
      have hrun := (hs.resolvedOk l hres).1
      rw [settle_of_isEmpty items processor truthy (by simp [hrun]) p,
        foldl_settle_frozen items processor truthy hrun rest, hres,
        (hs.resolvedOk l hres).2.2]
    | none =>
      have hne := hs.live hmin hres
      have hE : s.running.isEmpty = false := by
        simpa [List.isEmpty_eq_false] using hne
      have hmu2 := poolMeasure_settle items processor truthy limit hs hE p
      refine ih _ (poolInv_settle items processor truthy limit hs p) hmin ?_
      simp only [List.length_cons] at hmu
      omega

/-- The invariant holds at every reachable state of a run. -/
theorem processWithPool_inv (items : List α) (limit : Nat)
    (processor : α → Option β) (truthy : β → Bool) (schedule : List Nat) :
    PoolInv items processor truthy limit
      (processWithPool items limit processor truthy schedule) := by
  show PoolInv items processor truthy limit
    (schedule.foldl _ (startPool items.length limit truthy))
  generalize hstart : startPool items.length limit truthy = s0
  have hs0 : PoolInv items processor truthy limit s0 :=
    hstart ▸ poolInv_start items processor truthy limit
  clear hstart
  induction schedule generalizing s0 with
  | nil => exact hs0
  | cons p rest ih =>
    exact ih _ (poolInv_settle items processor truthy limit hs0 p)

/-- A run over a nonempty item list, with a positive concurrency limit and
a schedule long enough to settle every item, resolves with the collected
truthy outcomes of all items, in item order. -/
theorem processWithPool_resolved (items : List α) (limit : Nat)
    (processor : α → Option β) (truthy : β → Bool) (schedule : List Nat)
    (hne : items ≠ []) (hl : 1 ≤ limit)
    (hsch : items.length ≤ schedule.length) :
    (processWithPool items limit processor truthy schedule).resolved =
      some (collect truthy (items.map processor)) := by
  have hlen : 0 < items.length := List.length_pos.mpr hne
  refine foldl_settle_resolves items processor truthy limit schedule _
    (poolInv_start items processor truthy limit) (by omega) ?_
  rw [startPool_eq]
  simp only [poolMeasure]
  simp
  omega

/-- At resolution the results array holds exactly each item's outcome. -/
theorem processWithPool_results (items : List α) (limit : Nat)
    (processor : α → Option β) (truthy : β → Bool) (schedule : List Nat)
    (hne : items ≠ []) (hl : 1 ≤ limit)
    (hsch : items.length ≤ schedule.length) :
    (processWithPool items limit processor truthy schedule).results =
      items.map processor := by
  have hinv := processWithPool_inv items limit processor truthy schedule
  have hres := processWithPool_resolved items limit processor truthy schedule
    hne hl hsch
  obtain ⟨hrun, hnext, -⟩ := hinv.resolvedOk _ hres
  refine results_eq_map items processor _ hinv.res_len ?_
  intro i hi
  exact hinv.settledOk i (by omega) (by simp [hrun])

/-- A state mid-run of a longer schedule is the final state of the prefix:
the per-schedule theorems therefore cover every point of every run. -/
theorem processWithPool_append (items : List α) (limit : Nat)
    (processor : α → Option β) (truthy : β → Bool) (s1 s2 : List Nat) :
    processWithPool items limit processor truthy (s1 ++ s2) =
      s2.foldl (fun s p => settle items processor truthy s p)
        (processWithPool items limit processor truthy s1) := by
  simp [processWithPool, List.foldl_append]

/-- On an empty item list the initial batch is empty, `processNext` is
never invoked, and no schedule ever changes the state: the promise stays
pending forever. -/
theorem processWithPool_nil (limit : Nat) (processor : α → Option β)
    (truthy : β → Bool) (schedule : List Nat) :
    (processWithPool ([] : List α) limit processor truthy schedule).resolved =
      none := by
  show (schedule.foldl _ (startPool 0 limit truthy)).resolved = none
  have h0 : startPool (β := β) 0 limit truthy = initState 0 := by
    simp [startPool]
  rw [h0, foldl_settle_frozen ([] : List α) processor truthy rfl schedule]
  rfl

/-- Everything `collect` keeps is truthy. -/
theorem collect_mem_truthy (truthy : β → Bool) (rs : List (Option β)) :
    ∀ b ∈ collect truthy rs, truthy b = true := by
  intro b hb
  simp only [collect, List.mem_filterMap] at hb
  obtain ⟨o, _, ho2⟩ := hb
  cases o with
  | none => simp at ho2
  | some r =>
    by_cases ht : truthy r = true
    · simp only [ht, if_true] at ho2
      obtain rfl : r = b := by simpa using ho2
      exact ht
    · simp [ht] at ho2

/-- When every item succeeds with a truthy value, the collected list is in
index-by-index correspondence with the items. -/
theorem collect_map_truthy (processor : α → Option β) (truthy : β → Bool) :
    ∀ items : List α,
      (∀ a ∈ items, ∃ v, processor a = some v ∧ truthy v = true) →
      (collect truthy (items.map processor)).length = items.length ∧
      ∀ i, i < items.length →
        (collect truthy (items.map processor))[i]? = items[i]?.bind processor := by
  intro items
  induction items with
  | nil => intro _; exact ⟨rfl, fun i hi => by simp at hi⟩
  | cons a t ih =>
    intro h
    obtain ⟨v, hv, htv⟩ := h a (List.mem_cons_self a t)
    obtain ⟨ihlen, ihget⟩ := ih (fun b hb => h b (List.mem_cons_of_mem a hb))
    have hcons : collect truthy (processor a :: t.map processor) =
        v :: collect truthy (t.map processor) := by
      simp [collect, hv, htv]
    constructor
    · show (collect truthy (processor a :: t.map processor)).length = t.length + 1
      rw [hcons]
      simp [ihlen]
    · intro i hi
      show (collect truthy (processor a :: t.map processor))[i]? = _
      rw [hcons]
      cases i with
      | zero => simp [hv]
      | succ j =>
        simp only [List.getElem?_cons_succ]
        exact ihget j (by simpa using hi)

/-- Dropping a falsy success from the results is the same as dropping a
failure: `collect` cannot tell the two apart. -/
theorem collect_set_none (truthy : β → Bool) :
    ∀ (rs : List (Option β)) (k : Nat) (v : β), rs[k]? = some (some v) →
      truthy v = false →
      collect truthy rs = collect truthy (rs.set k none) := by
  intro rs
  induction rs with
  | nil => intro k v h _; simp at h
  | cons o t ih =>
    intro k v h hf
    cases k with
    | zero =>
      simp only [List.getElem?_cons_zero, Option.some.injEq] at h
      subst h
      simp [collect, List.filterMap_cons, hf]
    | succ j =>
      simp only [List.getElem?_cons_succ] at h
      have hrec := ih j v h hf
      show collect truthy (o :: t) = collect truthy (o :: t.set j none)
      cases o with
      | none => simpa [collect, List.filterMap_cons] using hrec
      | some r =>
        by_cases hr : truthy r = true
        · simpa [collect, List.filterMap_cons, hr] using hrec
        · simpa [collect, List.filterMap_cons, hr] using hrec

/-- C1 (amended): for every nonempty list of items, positive concurrency
limit, schedule settling every item, and worker all of whose invocations
succeed with truthy results, the resolved sequence is in one-to-one
correspondence with the input items — its length is `|items|` and its
i-th entry is exactly the i-th item's worker value — regardless of the
completion order the schedule encodes. -/
theorem pool_order_preservation (items : List α) (limit : Nat)
    (processor : α → Option β) (truthy : β → Bool) (schedule : List Nat)
    (hne : items ≠ []) (hl : 1 ≤ limit)
    (hsch : items.length ≤ schedule.length)
    (hw : ∀ a ∈ items, ∃ v, processor a = some v ∧ truthy v = true) :
    ∃ l, (processWithPool items limit processor truthy schedule).resolved =
        some l ∧
      l.length = items.length ∧
      ∀ i, i < items.length → l[i]? = items[i]?.bind processor := by
  refine ⟨collect truthy (items.map processor),
    processWithPool_resolved items limit processor truthy schedule hne hl hsch,
    (collect_map_truthy processor truthy items hw).1,
    (collect_map_truthy processor truthy items hw).2⟩

/-- C1 witness: a two-item run under an arbitrary completion order. -/
theorem pool_order_preservation_witness :
    ∃ l, (processWithPool [3, 4] 50 (fun a => some a) natTruthy
        [1, 0]).resolved = some l ∧
      l.length = [3, 4].length ∧
      ∀ i, i < [3, 4].length → l[i]? = [3, 4][i]?.bind (fun a => some a) := by
  refine pool_order_preservation [3, 4] 50 (fun a => some a) natTruthy [1, 0]
    (by decide) (by decide) (by decide) ?_
  intro a ha
  fin_cases ha <;> exact ⟨_, rfl, by decide⟩

/-- C1 counterexample: with the single item `0` and a worker that succeeds
with the falsy value `0`, the run resolves with the empty sequence — not
in one-to-one correspondence with the one input item. -/
theorem pool_order_preservation_cex :
    (processWithPool [0] 50 (fun a => some a) natTruthy [0]).resolved =
      some [] ∧ ([] : List Nat).length ≠ [0].length := by
  constructor
  · decide
  · decide

/-- C2: if item k's worker rejects while every other item's worker
fulfils, the run still resolves; every other slot holds its worker's
value, only slot k is left unpopulated, and the resolved collection is
the truthy collection of all the slots (to which slot k contributes
nothing). -/
theorem pool_fault_isolation (items : List α) (limit : Nat)
    (processor : α → Option β) (truthy : β → Bool) (schedule : List Nat)
    (k : Nat) (hk : k < items.length)
    (hne : items ≠ []) (hl : 1 ≤ limit)
    (hsch : items.length ≤ schedule.length)
    (hfail : processor (items.get ⟨k, hk⟩) = none)
    (hok : ∀ j, (hj : j < items.length) → j ≠ k →
      (processor (items.get ⟨j, hj⟩)).isSome = true) :
    (processWithPool items limit processor truthy schedule).results[k]? =
      some none ∧
    (∀ j, (hj : j < items.length) → j ≠ k →
      (processWithPool items limit processor truthy schedule).results[j]? =
        some (processor (items.get ⟨j, hj⟩)) ∧
      (processor (items.get ⟨j, hj⟩)).isSome = true) ∧
    (processWithPool items limit processor truthy schedule).resolved =
      some (collect truthy (items.map processor)) := by
  have hres := processWithPool_results items limit processor truthy schedule
    hne hl hsch
  refine ⟨?_, ?_,
    processWithPool_resolved items limit processor truthy schedule hne hl hsch⟩
  · rw [hres, List.getElem?_map, List.getElem?_eq_getElem hk]
    simp only [List.get_eq_getElem] at hfail
    simp [hfail]
  · intro j hj hjk
    refine ⟨?_, hok j hj hjk⟩
    rw [hres, List.getElem?_map, List.getElem?_eq_getElem hj]
    simp [List.get_eq_getElem]

/-- C2 witness: of three items the middle worker rejects; both other slots
are produced with their values and the run resolves. -/
theorem pool_fault_isolation_witness :
    (processWithPool [10, 20, 30] 2 (fun a => if a = 20 then none else some a)
        natTruthy [0, 0, 0]).results[1]? = some none ∧
    (∀ j, (hj : j < [10, 20, 30].length) → j ≠ 1 →
      (processWithPool [10, 20, 30] 2 (fun a => if a = 20 then none else some a)
          natTruthy [0, 0, 0]).results[j]? =
        some ((fun a => if a = 20 then none else some a)
          ([10, 20, 30].get ⟨j, hj⟩)) ∧
      ((fun a => if a = 20 then none else some a)
        ([10, 20, 30].get ⟨j, hj⟩)).isSome = true) ∧
    (processWithPool [10, 20, 30] 2 (fun a => if a = 20 then none else some a)
        natTruthy [0, 0, 0]).resolved =
      some (collect natTruthy ([10, 20, 30].map
        (fun a => if a = 20 then none else some a))) := by
  refine pool_fault_isolation [10, 20, 30] 2
    (fun a => if a = 20 then none else some a) natTruthy [0, 0, 0] 1
    (by decide) (by decide) (by decide) (by decide) (by decide) ?_
  intro j hj hjk
  have hj3 : j < 3 := by simpa using hj
  interval_cases j
  · simp
  · exact absurd rfl hjk
  · simp

/-- C3 (amended): for every NONEMPTY list of items, concurrency limit of at
least one, worker whose invocations all settle, and schedule that settles
at least `|items|` invocations, the run terminates: the promise resolves
with the collected truthy results. -/
theorem pool_termination (items : List α) (limit : Nat)
    (processor : α → Option β) (truthy : β → Bool) (schedule : List Nat)
    (hne : items ≠ []) (hl : 1 ≤ limit)
    (hsch : items.length ≤ schedule.length) :
    (processWithPool items limit processor truthy schedule).resolved =
      some (collect truthy (items.map processor)) :=
  processWithPool_resolved items limit processor truthy schedule hne hl hsch

/-- C3 witness: a singleton run resolves. -/
theorem pool_termination_witness :
    (processWithPool [7] 50 (fun a => some a) natTruthy [0]).resolved =
      some (collect natTruthy ([7].map (fun a => some a))) :=
  pool_termination [7] 50 (fun a => some a) natTruthy [0]
    (by decide) (by decide) (by decide)

/-- C3 counterexample: on the EMPTY item list the initial batch dispatches
nothing, `processNext` is never called, and the promise never resolves —
here after eight event-loop turns it is still pending (and
`processWithPool_nil` shows no schedule whatsoever can resolve it). -/
theorem pool_termination_cex :
    (processWithPool ([] : List Nat) 50 (fun a => some a) natTruthy
      (List.range 8)).resolved = none := by
  decide

/-- C4: at every reachable state of every run, the number of in-flight
worker invocations is at most `min(concurrencyLimit, |items|)`; while
undispatched items remain it is exactly `min(concurrencyLimit, |items|)`;
and the program's default pool size is 50. -/
theorem pool_concurrency_invariant (items : List α) (limit : Nat)
    (processor : α → Option β) (truthy : β → Bool) (schedule : List Nat) :
    (processWithPool items limit processor truthy schedule).running.length ≤
      min limit items.length ∧
    ((processWithPool items limit processor truthy schedule).nextIndex <
        items.length →
      (processWithPool items limit processor truthy schedule).running.length =
        min limit items.length) ∧
    CONCURRENCY_LIMIT = 50 := by
  have hinv := processWithPool_inv items limit processor truthy schedule
  exact ⟨hinv.len_le, hinv.steady, rfl⟩

/-- C10: a worker invocation that fulfils with a falsy value has its result
omitted from the resolved collection exactly as if it had rejected — the
run resolves as if that slot were unpopulated — and only truthy values
ever appear in the resolved collection. -/
theorem pool_falsy_dropped (items : List α) (limit : Nat)
    (processor : α → Option β) (truthy : β → Bool) (schedule : List Nat)
    (k : Nat) (hk : k < items.length) (v : β)
    (hv : processor (items.get ⟨k, hk⟩) = some v) (hfalsy : truthy v = false)
    (hne : items ≠ []) (hl : 1 ≤ limit)
    (hsch : items.length ≤ schedule.length) :
    (processWithPool items limit processor truthy schedule).resolved =
      some (collect truthy ((items.map processor).set k none)) ∧
    ∀ l, (processWithPool items limit processor truthy schedule).resolved =
      some l → ∀ b ∈ l, truthy b = true := by
  have hres := processWithPool_resolved items limit processor truthy schedule
    hne hl hsch
  constructor
  · rw [hres]
    congr 1
    refine collect_set_none truthy (items.map processor) k v ?_ hfalsy
    rw [List.getElem?_map, List.getElem?_eq_getElem hk]
    simp only [List.get_eq_getElem] at hv
    simp [hv]
  · intro l hl2 b hb
    rw [hres] at hl2
    obtain rfl : collect truthy (items.map processor) = l := by simpa using hl2
    exact collect_mem_truthy truthy (items.map processor) b hb

/-- C10 witness: the middle worker fulfils with the falsy `0`; the run
resolves exactly as if that slot had failed, and every resolved value is
truthy. -/
theorem pool_falsy_dropped_witness :
    (processWithPool [1, 0, 2] 50 (fun a => some a) natTruthy
        [0, 0, 0]).resolved =
      some (collect natTruthy (([1, 0, 2].map (fun a => some a)).set 1 none)) ∧
    ∀ l, (processWithPool [1, 0, 2] 50 (fun a => some a) natTruthy
      [0, 0, 0]).resolved = some l → ∀ b ∈ l, natTruthy b = true :=
  pool_falsy_dropped [1, 0, 2] 50 (fun a => some a) natTruthy [0, 0, 0] 1
    (by decide) 0 (by decide) (by decide) (by decide) (by decide) (by decide)

/-! ### String-model helper lemmas -/

theorem jsStartsWith_nil_any (s : JSStr) : jsStartsWith s [] = true := by
  cases s <;> rfl

theorem jsStartsWith_cons_single (a : Char) (s : JSStr) (c : Char) :
    jsStartsWith (a :: s) [c] = (a == c) := by
  show (a == c && jsStartsWith s []) = (a == c)
  rw [jsStartsWith_nil_any, Bool.and_true]

theorem jsStartsWith_single_false_of_not_mem {s : JSStr} {c : Char}
    (h : c ∉ s) : jsStartsWith s [c] = false := by
  cases s with
  | nil => rfl
  | cons a t =>
    rw [jsStartsWith_cons_single]
    exact beq_eq_false_iff_ne.mpr
      fun he => h (he ▸ List.mem_cons_self a t)

theorem jsEndsWith_concat_self (u : JSStr) (c : Char) :
    jsEndsWith (u ++ [c]) [c] = true := by
  unfold jsEndsWith
  have h1 : (u ++ [c]).reverse = c :: u.reverse := by simp
  have h2 : ([c] : JSStr).reverse = [c] := rfl
  rw [h1, h2, jsStartsWith_cons_single]
  simp

theorem jsEndsWith_false_of_not_mem {s : JSStr} {c : Char} (h : c ∉ s) :
    jsEndsWith s [c] = false := by
  unfold jsEndsWith
  have h2 : ([c] : JSStr).reverse = [c] := rfl
  rw [h2]
  exact jsStartsWith_single_false_of_not_mem (by simpa using h)

theorem jsIncludes_true_of_mem {s : JSStr} {c : Char} (h : c ∈ s) :
    jsIncludes s c = true := by
  simp [jsIncludes, List.contains, h]

theorem not_mem_of_jsIncludes_false {s : JSStr} {c : Char}
    (h : jsIncludes s c = false) : c ∉ s := by
  simp [jsIncludes, List.contains] at h
  exact h

theorem splitLines_no_newline : ∀ {l : JSStr}, ('\n') ∉ l → splitLines l = [l] := by
  intro l
  induction l with
  | nil => intro _; rfl
  | cons c t ih =>
    intro h
    have hc : c ≠ '\n' := fun he => h (he ▸ List.mem_cons_self c t)
    have ht : ('\n') ∉ t := fun hm => h (List.mem_cons_of_mem c hm)
    simp only [splitLines, if_neg hc, ih ht]

theorem splitLines_append : ∀ (l : JSStr), ('\n') ∉ l → ∀ rest : JSStr,
    splitLines (l ++ '\n' :: rest) = l :: splitLines rest := by
  intro l
  induction l with
  | nil => intro _ rest; simp [splitLines]
  | cons c t ih =>
    intro h rest
    have hc : c ≠ '\n' := fun he => h (he ▸ List.mem_cons_self c t)
    have ht : ('\n') ∉ t := fun hm => h (List.mem_cons_of_mem c hm)
    show splitLines (c :: (t ++ '\n' :: rest)) = _
    simp only [splitLines, if_neg hc]
    rw [ih ht rest]

theorem splitLines_joinLines : ∀ lines : List JSStr, lines ≠ [] →
    (∀ ln ∈ lines, ('\n') ∉ ln) → splitLines (joinLines lines) = lines := by
  intro lines
  induction lines with
  | nil => intro h _; exact absurd rfl h
  | cons l rest ih =>
    intro _ hnl
    cases rest with
    | nil =>
      show splitLines l = [l]
      exact splitLines_no_newline (hnl l (List.mem_cons_self _ _))
    | cons l2 rest2 =>
      show splitLines (l ++ '\n' :: joinLines (l2 :: rest2)) = l :: l2 :: rest2
      rw [splitLines_append l (hnl l (List.mem_cons_self _ _)),
        ih (by simp) (fun ln hln => hnl ln (List.mem_cons_of_mem _ hln))]

/-- C5: the ignore-rule translation.  Writing `t` for the trimmed line:
(a) blank lines are dropped; (b) lines starting `#` are dropped; (c) lines
starting `!` are dropped entirely, not inverted; (d) a rule `d::u ++ "/"`
with a trailing slash (and not starting with `/`) becomes the rule without
the trailing slash followed by `/**`, (d2) with also a leading slash the
slash is stripped as well; (e) a rule containing no `/` is prefixed with
`**/`; (f) a leading `/` is stripped; (g) the patterns come out in
source-line order: on any newline-free line list, `parseGitignore` of the
joined content is exactly the per-line translation, in order. -/
theorem gitignore_translation :
    (∀ l : JSStr, jsTrim l = [] → translateLine l = none) ∧
    (∀ (l u : JSStr), jsTrim l = '#' :: u → translateLine l = none) ∧
    (∀ (l u : JSStr), jsTrim l = '!' :: u → translateLine l = none) ∧
    (∀ (l : JSStr) (d : Char) (u : JSStr),
      jsTrim l = d :: (u ++ ['/']) → d ≠ '#' → d ≠ '!' → d ≠ '/' →
      translateLine l = some (d :: (u ++ ['/', '*', '*']))) ∧
    (∀ (l u : JSStr), jsTrim l = '/' :: (u ++ ['/']) →
      translateLine l = some (u ++ ['/', '*', '*'])) ∧
    (∀ (l : JSStr) (d : Char) (u : JSStr),
      jsTrim l = d :: u → d ≠ '#' → d ≠ '!' →
      jsIncludes (d :: u) '/' = false →
      translateLine l = some ('*' :: '*' :: '/' :: d :: u)) ∧
    (∀ (l u : JSStr), jsTrim l = '/' :: u →
      jsEndsWith ('/' :: u) ['/'] = false → translateLine l = some u) ∧
    (∀ lines : List JSStr, (∀ ln ∈ lines, ('\n') ∉ ln) →
      parseGitignore (joinLines lines) = lines.filterMap translateLine) := by
  refine ⟨?_, ?_, ?_, ?_, ?_, ?_, ?_, ?_⟩
  · intro l h1
    simp [translateLine, h1]
  · intro l u h1
    simp [translateLine, h1, jsStartsWith_cons_single]
  · intro l u h1
    simp [translateLine, h1, jsStartsWith_cons_single]
  · intro l d u h1 hd1 hd2 hd3
    have hcons : ∀ z : JSStr, d :: (u ++ z) = (d :: u) ++ z := fun z => rfl
    have hend : jsEndsWith (d :: (u ++ ['/'])) ['/'] = true := by
      rw [hcons]; exact jsEndsWith_concat_self (d :: u) '/'
    have hdrop : (d :: (u ++ ['/'])).dropLast = d :: u := by
      rw [hcons, List.dropLast_concat]
    have hinc : jsIncludes (d :: (u ++ ['/', '*', '*'])) '/' = true :=
      jsIncludes_true_of_mem (by simp)
    simp [translateLine, h1, jsStartsWith_cons_single, hend, hdrop, hinc,
      beq_eq_false_iff_ne.mpr hd1, beq_eq_false_iff_ne.mpr hd2,
      beq_eq_false_iff_ne.mpr hd3]
  · intro l u h1
    have hcons : ∀ z : JSStr, ('/' : Char) :: (u ++ z) = ('/' :: u) ++ z :=
      fun z => rfl
    have hend : jsEndsWith ('/' :: (u ++ ['/'])) ['/'] = true := by
      rw [hcons]; exact jsEndsWith_concat_self ('/' :: u) '/'
    have hdrop : (('/' : Char) :: (u ++ ['/'])).dropLast = '/' :: u := by
      rw [hcons, List.dropLast_concat]
    simp [translateLine, h1, jsStartsWith_cons_single, hend, hdrop]
  · intro l d u h1 hd1 hd2 hinc
    have hmem : ('/' : Char) ∉ d :: u := not_mem_of_jsIncludes_false hinc
    have hend : jsEndsWith (d :: u) ['/'] = false :=
      jsEndsWith_false_of_not_mem hmem
    have hd3 : d ≠ '/' := fun he => hmem (he ▸ List.mem_cons_self d u)
    simp [translateLine, h1, jsStartsWith_cons_single, hend, hinc,
      beq_eq_false_iff_ne.mpr hd1, beq_eq_false_iff_ne.mpr hd2,
      beq_eq_false_iff_ne.mpr hd3]
  · intro l u h1 hend
    simp [translateLine, h1, jsStartsWith_cons_single, hend]
  · intro lines hnl
    cases lines with
    | nil => rfl
    | cons l rest =>
      rw [parseGitignore, splitLines_joinLines (l :: rest) (by simp) hnl]

/-- Concrete checks of the translation on one rule of each kind. -/
theorem gitignore_translation_examples :
    translateLine (("build/").data) = some (("build/**").data) ∧
    translateLine (("*.log").data) = some (("**/*.log").data) ∧
    translateLine (("/dist").data) = some (("dist").data) ∧
    translateLine (("!keep").data) = none ∧
    translateLine (("# note").data) = none ∧
    translateLine (("   ").data) = none ∧
    parseGitignore (("build/\n# note\n!keep\n*.log").data) =
      [("build/**").data, ("**/*.log").data] := by
  decide

/-- C6 (amended): with a NONEMPTY author filter supplied the extractor
returns the count of per-line identities exactly equal (no fuzzy
matching) to the filter; with no filter it returns the full ordered
sequence; on the authorship sequence `["A","B","A","A","C"]` the filter
`"A"` yields 3 and no-filter mode yields the full 5-element sequence. -/
theorem authors_filter (u : JSStr) (hu : u ≠ []) (output : JSStr) :
    getAuthorsFromFile (some output) (some u) =
      Sum.inr ((parseBlameAuthors output).filter (fun a => a == u)).length ∧
    getAuthorsFromFile (some output) none =
      Sum.inl (parseBlameAuthors output) ∧
    getAuthorsFromFile (some blameFive) (some (("A").data)) = Sum.inr 3 ∧
    getAuthorsFromFile (some blameFive) none =
      Sum.inl [("A").data, ("B").data, ("A").data, ("A").data, ("C").data] := by
  refine ⟨?_, ?_, by decide, by decide⟩
  · have hE : u.isEmpty = false := List.isEmpty_eq_false.mpr hu
    simp [getAuthorsFromFile, hE]
  · simp [getAuthorsFromFile]

/-- C6 witness: the synthetic five-line authorship sequence with the
nonempty filter `"A"`. -/
theorem authors_filter_witness :
    getAuthorsFromFile (some blameFive) (some (("A").data)) =
      Sum.inr ((parseBlameAuthors blameFive).filter
        (fun a => a == ("A").data)).length ∧
    getAuthorsFromFile (some blameFive) none =
      Sum.inl (parseBlameAuthors blameFive) ∧
    getAuthorsFromFile (some blameFive) (some (("A").data)) = Sum.inr 3 ∧
    getAuthorsFromFile (some blameFive) none =
      Sum.inl [("A").data, ("B").data, ("A").data, ("A").data, ("C").data] :=
  authors_filter (("A").data) (by decide) blameFive

/-- C6 counterexample: the empty string is a supplied author filter, but
by JavaScript truthiness (`if (filterUser)`) the extractor ignores it and
returns the full five-element sequence rather than any count. -/
theorem authors_filter_cex :
    getAuthorsFromFile (some blameFive) (some []) =
      Sum.inl [("A").data, ("B").data, ("A").data, ("A").data, ("C").data] ∧
    (getAuthorsFromFile (some blameFive) (some [])).isRight = false := by
  decide

/-- C7 (amended): a failure to invoke or parse the blame oracle yields the
empty sequence — or zero when a NONEMPTY filter is supplied — for that
file alone, and under every filter value the failure result coincides
with the result on a file whose blame output is empty (zero lines): the
two are indistinguishable. -/
theorem authors_failure (u : JSStr) (hu : u ≠ []) (f : Option JSStr) :
    getAuthorsFromFile none (some u) = Sum.inr 0 ∧
    getAuthorsFromFile none none = Sum.inl [] ∧
    getAuthorsFromFile none f = getAuthorsFromFile (some []) f := by
  refine ⟨?_, by decide, ?_⟩
  · have hE : u.isEmpty = false := List.isEmpty_eq_false.mpr hu
    simp [getAuthorsFromFile, hE]
  · cases f with
    | none => decide
    | some v =>
      cases v with
      | nil => decide
      | cons a t =>
        have hpb : parseBlameAuthors ([] : JSStr) = [] := by decide
        have hE : (a :: t).isEmpty = false := rfl
        simp [getAuthorsFromFile, hpb, hE]

/-- C7 witness: oracle failure with the nonempty filter `"X"`, and the
indistinguishability instance at no filter. -/
theorem authors_failure_witness :
    getAuthorsFromFile none (some (("X").data)) = Sum.inr 0 ∧
    getAuthorsFromFile none none = Sum.inl [] ∧
    getAuthorsFromFile none none = getAuthorsFromFile (some []) none :=
  authors_failure (("X").data) (by decide) none

/-- C7 counterexample: when the supplied filter is the empty string, a
failure returns the empty sequence, not zero — JavaScript truthiness
routes `""` through the no-filter branch of `filterUser ? 0 : []`. -/
theorem authors_failure_cex :
    getAuthorsFromFile none (some []) = Sum.inl [] ∧
    getAuthorsFromFile none (some []) ≠ Sum.inr 0 := by
  decide

/-- Closed form of the general-mode tally: all-whitespace identities count
zero, every other identity counts its exact-equality occurrences. -/
theorem authorTally_count : ∀ (l : List JSStr) (a : JSStr),
    authorTally l a = if (jsTrim a).isEmpty then 0 else l.count a := by
  have key : ∀ (l : List JSStr) (acc : JSStr → Nat) (a : JSStr),
      (l.foldl bumpAuthor acc) a =
        acc a + (if (jsTrim a).isEmpty then 0 else l.count a) := by
    intro l
    induction l with
    | nil =>
      intro acc a
      by_cases h : (jsTrim a).isEmpty <;> simp [h]
    | cons b t ih =>
      intro acc a
      show (t.foldl bumpAuthor (bumpAuthor acc b)) a = _
      rw [ih]
      by_cases hb : (jsTrim b).isEmpty
      · by_cases hab : a = b
        · subst hab
          simp [bumpAuthor, hb, List.count_cons]
        · have : (b == a) = false := beq_eq_false_iff_ne.mpr
            fun he => hab he.symm
          simp [bumpAuthor, hb, List.count_cons, this]
      · by_cases hab : a = b
        · subst hab
          simp [bumpAuthor, hb, List.count_cons]
          omega
        · have hne : (b == a) = false := beq_eq_false_iff_ne.mpr
            fun he => hab he.symm
          simp [bumpAuthor, hb, List.count_cons, hne, hab]
  intro l a
  have := key l (fun _ => 0) a
  simpa [authorTally] using this

/-- C8: the general-mode aggregation is commutative — folding the per-file
authorship records in any shuffled order gives the identical tally — and
counts identities by exact equality, except that identities whose trim is
empty are dropped. -/
theorem tally_commutative (records records2 : List (List JSStr))
    (h : records.Perm records2) :
    authorTally records.flatten = authorTally records2.flatten ∧
    ∀ a, authorTally records.flatten a =
      if (jsTrim a).isEmpty then 0 else records.flatten.count a := by
  constructor
  · funext a
    rw [authorTally_count, authorTally_count]
    by_cases hE : (jsTrim a).isEmpty
    · simp [hE]
    · simp only [hE, Bool.false_eq_true, if_false]
      exact h.flatten.countP_eq _
  · intro a
    exact authorTally_count _ a

/-- C8 witness: two shuffled record lists give the identical tally. -/
theorem tally_commutative_witness :
    authorTally [[("A").data, ("B").data], [("A").data]].flatten =
      authorTally [[("A").data], [("A").data, ("B").data]].flatten ∧
    ∀ a, authorTally [[("A").data, ("B").data], [("A").data]].flatten a =
      if (jsTrim a).isEmpty then 0
      else [[("A").data, ("B").data], [("A").data]].flatten.count a :=
  tally_commutative [[("A").data, ("B").data], [("A").data]]
    [[("A").data], [("A").data, ("B").data]] (by decide)

/-- C9 (amended): the output sort orders by count DESCENDING only — the
comparator is `b - a` on the counts — and, the sort being stable, entries
with equal counts keep their original (tally-insertion) relative order;
the sorted sequence is a permutation of the entries.  No lexicographic
tie-break takes place. -/
theorem sort_contract (entries : List (JSStr × Nat)) :
    (sortEntries entries).Perm entries ∧
    (sortEntries entries).Pairwise (fun e f => f.2 ≤ e.2) ∧
    ∀ e f : JSStr × Nat, [e, f].Sublist entries → e.2 = f.2 →
      [e, f].Sublist (sortEntries entries) := by
  have htrans : ∀ a b c : JSStr × Nat, Nat.ble b.2 a.2 → Nat.ble c.2 b.2 →
      Nat.ble c.2 a.2 := by
    intro a b c h1 h2
    simp only [Nat.ble_eq] at h1 h2 ⊢
    omega
  have htotal : ∀ a b : JSStr × Nat,
      (Nat.ble b.2 a.2 || Nat.ble a.2 b.2) = true := by
    intro a b
    rcases Nat.le_total b.2 a.2 with h | h <;> simp [Nat.ble_eq, h]
  refine ⟨List.mergeSort_perm entries _, ?_, ?_⟩
  · have hs := List.sorted_mergeSort htrans htotal entries
    exact hs.imp fun hle => Nat.le_of_ble_eq_true hle
  · intro e f hsub heq
    refine List.pair_sublist_mergeSort htrans htotal ?_ hsub
    simp [Nat.ble_eq, heq]

/-- C9 counterexample: the authors `["B","A"]` produce two entries of equal
count in insertion order `B, A`; the sorted output keeps `B` first even
though `"A" < "B"` lexicographically, so the claimed ascending
lexicographic tie-break fails. -/
theorem sort_not_lexicographic :
    sortEntries (authorEntries [("B").data, ("A").data]) =
      [(("B").data, 1), (("A").data, 1)] ∧
    (("A").data < ("B").data) ∧
    ¬ (sortEntries (authorEntries [("B").data, ("A").data])).Pairwise
      (fun e f => e.2 > f.2 ∨ (e.2 = f.2 ∧ e.1 < f.1)) := by
  have he : authorEntries [("B").data, ("A").data] =
      [(("B").data, 1), (("A").data, 1)] := by decide
  have hq : sortEntries (authorEntries [("B").data, ("A").data]) =
      [(("B").data, 1), (("A").data, 1)] := by
    rw [sortEntries, he]
    simp [List.mergeSort, List.merge]
  refine ⟨hq, by decide, ?_⟩
  rw [hq]
  simp only [List.pairwise_cons, List.mem_singleton]
  intro hcon
  have := hcon.1 _ rfl
  rcases this with h | ⟨_, h2⟩
  · omega
  · revert h2
    decide

end Gala
